import Mathlib

/-
Verification of the PyMotifFinder core (pymotiffinder/motif_finder.py).

The Python source is embedded shallowly:
  * DNA sequences are `List Char`, names are `String`;
  * a pandas row of `indexed_motif_finder` output is a `MatchRow`
    (`reference_alignment : Option Int`, `none` standing for `np.nan`);
  * the k-mer dictionary is an association list from k-mers to the list of
    `(name, sequence, offset)` occurrences, with set-like (duplicate free)
    insertion, mirroring the Python `dict` of `set`s;
  * Python integers are `Int` where the source can go negative
    (`seed_starts` window arithmetic), `Nat` where it cannot (offsets in the
    k-mer dictionary, loop counters);
  * `DataFrame.drop_duplicates` (keep the first occurrence) is `pyDedup`;
  * Python float division, which raises `ZeroDivisionError` on a zero
    divisor, is `pyDiv` returning `Except`.
-/

namespace PyMotifFinder

/-! ## Basic helpers -/

/-- Minimum of a list of integers, `np.min`; `0` on the empty list
(NumPy raises there; the default is never used by in-contract callers). -/
def listMin : List Int → Int
  | [] => 0
  | a :: t => t.foldl min a

/-- Maximum of a list of integers, `np.max`; `0` on the empty list. -/
def listMax : List Int → Int
  | [] => 0
  | a :: t => t.foldl max a

/-- `n` consecutive integers counting up from `lo`. -/
def intRangeGo : Nat → Int → List Int
  | 0, _ => []
  | n + 1, lo => lo :: intRangeGo n (lo + 1)

/-- The list `[lo, lo+1, ..., hi]`, i.e. Python `range(lo, hi + 1)`. -/
def intRange (lo hi : Int) : List Int :=
  intRangeGo (hi + 1 - lo).toNat lo

/-- Python slice `s[start : start + k]`. -/
def substringAt (s : List Char) (start k : Nat) : List Char :=
  (s.drop start).take k

/-! ## KmerIndex: `make_kmer_dictionary` -/

/-- A reference record: `SeqRecord` restricted to the fields the core uses. -/
structure RefRecord where
  name : String
  seq : List Char
deriving DecidableEq

/-- One occurrence of a k-mer: the `(ref.name, str(ref.seq), start)` triple. -/
abbrev Occ := String × List Char × Nat

/-- The k-mer dictionary: an association list keyed by k-mers. -/
abbrev KmerDict := List (List Char × List Occ)

/-- Add an occurrence to a set of occurrences (`set.add`): no duplicates. -/
def occInsert (occs : List Occ) (o : Occ) : List Occ :=
  if o ∈ occs then occs else occs ++ [o]

/-- `d[kmer].add(occ)` when the key is present, `d[kmer] = set([occ])`
otherwise. -/
def dictInsert : KmerDict → List Char → Occ → KmerDict
  | [], km, o => [(km, [o])]
  | (k0, occs) :: rest, km, o =>
    if k0 = km then (k0, occInsert occs o) :: rest
    else (k0, occs) :: dictInsert rest km o

/-- All occurrences stored under a key (`d[kmer]`, the empty list when the
key is absent). -/
def dictOccs : KmerDict → List Char → List Occ
  | [], _ => []
  | (k0, occs) :: rest, s => if k0 = s then occs ++ dictOccs rest s else dictOccs rest s

/-- `kmer in d` for the k-mer dictionary. -/
def dictHasKey : KmerDict → List Char → Bool
  | [], _ => false
  | (k0, _) :: rest, s => decide (k0 = s) || dictHasKey rest s

/-- Index one reference: for `start in range(0, seq_len - k + 1)`, insert
`(name, seq, start)` under the k-mer `seq[start : start + k]`. -/
def addRefKmers (k : Nat) (d : KmerDict) (ref : RefRecord) : KmerDict :=
  (List.range (ref.seq.length + 1 - k)).foldl
    (fun d start => dictInsert d (substringAt ref.seq start k) (ref.name, ref.seq, start)) d

/-- Complement of a DNA base (A-T and C-G swapped). -/
def complementChar : Char → Char
  | 'A' => 'T'
  | 'T' => 'A'
  | 'C' => 'G'
  | 'G' => 'C'
  | c => c

/-- Reverse complement of a DNA sequence. -/
def reverseComplement (s : List Char) : List Char :=
  (s.map complementChar).reverse

/-- The synthetic reverse-complement reference added when
`reverse_complement=True`: name suffixed `_rc`, sequence complemented. -/
def rcRecord (r : RefRecord) : RefRecord :=
  { name := r.name ++ "_rc", seq := reverseComplement r.seq }

/-- The reference list actually indexed: the originals, followed by their
reverse complements when `rc` is set. -/
def indexedRefs (refs : List RefRecord) (rc : Bool) : List RefRecord :=
  if rc then refs ++ refs.map rcRecord else refs

/-- `make_kmer_dictionary(references, k, reverse_complement)`. -/
def make_kmer_dictionary (refs : List RefRecord) (k : Nat) (rc : Bool) : KmerDict :=
  (indexedRefs refs rc).foldl (addRefKmers k) []

/-! ## SeedWindowing: `seed_starts` -/

/-- `seed_starts(idx, seed_len, seq_len)`: lowest and highest start of a
window of length `seed_len` containing all the mutation indices. -/
def seed_starts (idx : List Int) (seed_len seq_len : Int) : Int × Int :=
  let idx_hi := listMax idx
  let idx_lo := listMin idx
  (max 0 (idx_hi - seed_len + 1), min (seq_len - seed_len) idx_lo)

/-! ## MotifSearch: `indexed_motif_finder` -/

/-- A mutation record produced by the external partis parser.
`mutation_index` and `mutated_base` hold one element for a single mutation
and several for a "poly" mutation group. -/
structure MutationRecord where
  mutated_seq : List Char
  naive_seq : List Char
  mutated_seq_id : String
  mutation_index : List Int
  mutated_base : String
deriving DecidableEq

/-- One output row of `indexed_motif_finder` (`all_matches=True` shape);
`reference_alignment = none` models `np.nan`. -/
structure MatchRow where
  query_sequence : List Char
  query_name : String
  query_mutation_index : List Int
  naive_sequence : List Char
  mutated_base : String
  reference_name : String
  reference_sequence : List Char
  reference_alignment : Option Int
deriving DecidableEq

/-- The row appended for a reference occurrence of a seed. -/
def mkMatchRow (rec : MutationRecord) (occ : Occ) (align : Int) : MatchRow :=
  { query_sequence := rec.mutated_seq
    query_name := rec.mutated_seq_id
    query_mutation_index := rec.mutation_index
    naive_sequence := rec.naive_seq
    mutated_base := rec.mutated_base
    reference_name := occ.1
    reference_sequence := occ.2.1
    reference_alignment := some align }

/-- The row appended when no window around the mutations matched. -/
def noMatchRow (rec : MutationRecord) : MatchRow :=
  { query_sequence := rec.mutated_seq
    query_name := rec.mutated_seq_id
    query_mutation_index := rec.mutation_index
    naive_sequence := rec.naive_seq
    mutated_base := rec.mutated_base
    reference_name := ""
    reference_sequence := []
    reference_alignment := none }

/-- The loop range `range(min_start, max_start + 1)` of window starts the
per-record loop walks. -/
def seedRange (k : Nat) (rec : MutationRecord) : List Int :=
  let p := seed_starts rec.mutation_index (k : Int) (rec.mutated_seq.length : Int)
  intRange p.1 p.2

/-- The `found_match` flag of the per-record loop: some seed window occurs
as a key of the dictionary. -/
def recordFound (kd : KmerDict) (k : Nat) (rec : MutationRecord) : Bool :=
  (seedRange k rec).any (fun start => dictHasKey kd (substringAt rec.mutated_seq start.toNat k))

/-- The match rows appended by the per-record loop: for each window start
and each occurrence of the seed, a row whose alignment is
`ref_idx + (min(mut_idx) - start)`. -/
def recordHits (kd : KmerDict) (k : Nat) (rec : MutationRecord) : List MatchRow :=
  (seedRange k rec).flatMap (fun start =>
    (dictOccs kd (substringAt rec.mutated_seq start.toNat k)).map (fun occ =>
      mkMatchRow rec occ ((occ.2.2 : Int) + (listMin rec.mutation_index - start))))

/-- All rows contributed by one mutation record: the hit rows when a seed
was found in the dictionary, the single no-match row otherwise. -/
def recordMatchRows (kd : KmerDict) (k : Nat) (rec : MutationRecord) : List MatchRow :=
  if recordFound kd k rec then recordHits kd k rec else [noMatchRow rec]

/-- Walk the list keeping each value not yet seen. -/
def pyDedupGo {α : Type} [DecidableEq α] : List α → List α → List α
  | [], _ => []
  | a :: l, seen => if a ∈ seen then pyDedupGo l seen else a :: pyDedupGo l (a :: seen)

/-- `DataFrame.drop_duplicates`: keep the first occurrence of each value. -/
def pyDedup {α : Type} [DecidableEq α] (l : List α) : List α :=
  pyDedupGo l []

/-- `indexed_motif_finder(mutations, kmer_dict, k, all_matches=True)`:
the deduplicated match rows of all records. -/
def indexed_motif_finder (muts : List MutationRecord) (kd : KmerDict) (k : Nat) :
    List MatchRow :=
  pyDedup (muts.flatMap (recordMatchRows kd k))

/-- One row of the collapsed (`all_matches=False`) output. -/
structure CollapsedRow where
  query_sequence : List Char
  query_name : String
  query_mutation_index : List Int
  naive_sequence : List Char
  mutated_base : String
  match_exists : Bool
deriving DecidableEq

/-- Projection of a match row to the collapsed columns;
`match_exists` is `not np.isnan(reference_alignment)`. -/
def collapseRow (m : MatchRow) : CollapsedRow :=
  { query_sequence := m.query_sequence
    query_name := m.query_name
    query_mutation_index := m.query_mutation_index
    naive_sequence := m.naive_sequence
    mutated_base := m.mutated_base
    match_exists := m.reference_alignment.isSome }

/-- `indexed_motif_finder(mutations, kmer_dict, k, all_matches=False)`. -/
def indexed_motif_finder_collapsed (muts : List MutationRecord) (kd : KmerDict) (k : Nat) :
    List CollapsedRow :=
  pyDedup ((indexed_motif_finder muts kd k).map collapseRow)

/-! ## MatchExtension: `extend_matches` -/

/-- Python `s[i]` for the indices the extension loops access; out-of-range
access (which Python would reject or wrap) yields a junk character that the
loops' own bound checks keep unreachable in contract. -/
def charAt (s : List Char) (i : Int) : Char :=
  s.getD i.toNat ' '

/-- The left-extension `while` loop, fueled so that it is structurally
recursive: grow `left` while the characters one step further left of the
mutation agree and neither index leaves the front of its sequence. The
loop stops once `qIdx - left - 1 < 0`, so it iterates fewer than
`qIdx.toNat + 1` times and the fuel of `extendLeftLoop` never runs out. -/
def extendLeftGo (qseq rseq : List Char) (qIdx rIdx : Int) : Nat → Nat → Nat
  | 0, left => left
  | fuel + 1, left =>
    if qIdx - left - 1 < 0 then left
    else if rIdx - left - 1 < 0 then left
    else if charAt rseq (rIdx - left - 1) = charAt qseq (qIdx - left - 1) then
      extendLeftGo qseq rseq qIdx rIdx fuel (left + 1)
    else left

/-- The left-extension `while` loop of `extend_matches`, starting at 0. -/
def extendLeftLoop (qseq rseq : List Char) (qIdx rIdx : Int) : Nat :=
  extendLeftGo qseq rseq qIdx rIdx (qIdx.toNat + 1) 0

/-- The right-extension `while` loop, fueled so that it is structurally
recursive: grow `right` while the characters one step further right agree
and neither index reaches the end of its sequence. The loop stops once
`rIdx + right + 1` reaches `len(rseq)`, so the fuel of `extendRightLoop`
never runs out. -/
def extendRightGo (qseq rseq : List Char) (qIdx rIdx : Int) : Nat → Nat → Nat
  | 0, right => right
  | fuel + 1, right =>
    if (rseq.length : Int) ≤ rIdx + right + 1 then right
    else if (qseq.length : Int) ≤ qIdx + right + 1 then right
    else if charAt rseq (rIdx + right + 1) = charAt qseq (qIdx + right + 1) then
      extendRightGo qseq rseq qIdx rIdx fuel (right + 1)
    else right

/-- The right-extension `while` loop of `extend_matches`, starting at 0. -/
def extendRightLoop (qseq rseq : List Char) (qIdx rIdx : Int) : Nat :=
  extendRightGo qseq rseq qIdx rIdx (((rseq.length : Int) - rIdx).toNat + 1) 0

/-- One successful left-extension step at distance `j + 1` from the
mutation: both indices stay inside the front of their sequences and the
characters there agree. -/
def leftOk (qseq rseq : List Char) (qIdx rIdx : Int) (j : Nat) : Prop :=
  0 ≤ qIdx - j - 1 ∧ 0 ≤ rIdx - j - 1 ∧
    charAt rseq (rIdx - j - 1) = charAt qseq (qIdx - j - 1)

/-- One successful right-extension step at distance `j + 1` from the
mutation: both indices stay inside the end of their sequences and the
characters there agree. -/
def rightOk (qseq rseq : List Char) (qIdx rIdx : Int) (j : Nat) : Prop :=
  rIdx + j + 1 < (rseq.length : Int) ∧ qIdx + j + 1 < (qseq.length : Int) ∧
    charAt rseq (rIdx + j + 1) = charAt qseq (qIdx + j + 1)

/-- The three columns `extend_matches` adds to a row. -/
structure ExtendedFields where
  match_extent : Int
  query_left_idx : Int
  query_right_idx : Int
deriving DecidableEq, Repr

/-- The `extend_matches` body for one row: rows with an empty reference
sequence keep the three columns at `0`; otherwise run both loops from the
left-most mutation index and the reference alignment. -/
def extendRow (m : MatchRow) : ExtendedFields :=
  if m.reference_sequence = [] then { match_extent := 0, query_left_idx := 0, query_right_idx := 0 }
  else
    let qIdx := listMin m.query_mutation_index
    let rIdx := m.reference_alignment.getD 0
    let left := extendLeftLoop m.query_sequence m.reference_sequence qIdx rIdx
    let right := extendRightLoop m.query_sequence m.reference_sequence qIdx rIdx
    { match_extent := (left : Int) + right + 1
      query_left_idx := qIdx - left
      query_right_idx := qIdx + right }

/-- `extend_matches(df)`: the added columns, row by row. -/
def extend_matches (df : List MatchRow) : List ExtendedFields :=
  df.map extendRow

/-! ## Aggregator: `templated_number` -/

/-- The `(naive_sequence, query_mutation_index, mutated_base)` identity of a
mutation group, the key of the `already_seen_set`. -/
abbrev Triple := List Char × List Int × String

/-- The identity triple of a collapsed row. -/
def tripleOf (c : CollapsedRow) : Triple :=
  (c.naive_sequence, c.query_mutation_index, c.mutated_base)

/-- Key of the scoring-and-mutation dictionary: `(query_name, position)`. -/
abbrev SMKey := String × Int

/-- The scoring-and-mutation dictionary, insertion ordered like a Python
`dict`: values are `(templated, seen_before)` flags. -/
abbrev SMDict := List (SMKey × (Bool × Bool))

/-- First-match lookup in the scoring-and-mutation dictionary. -/
def smGet : SMDict → SMKey → Option (Bool × Bool)
  | [], _ => none
  | (k0, v) :: rest, k1 => if k0 = k1 then some v else smGet rest k1

/-- `d[key] = value`: replace in place when the key exists, append
otherwise. -/
def smSet : SMDict → SMKey → Bool × Bool → SMDict
  | [], k1, v => [(k1, v)]
  | (k0, v0) :: rest, k1, v =>
    if k0 = k1 then (k0, v) :: rest else (k0, v0) :: smSet rest k1 v

/-- `set_scoring_and_mutation_dict`: for every position of the group, OR the
new `(is_templated, was_seen_before)` evidence into the entry for
`(mutated_seq_name, position)`, defaulting to `(False, False)`. -/
def set_scoring_and_mutation_dict (name : String) (midx : List Int) (t s : Bool)
    (d : SMDict) : SMDict :=
  midx.foldl (fun d m =>
    let old := (smGet d (name, m)).getD (false, false)
    smSet d (name, m) (old.1 || t, old.2 || s)) d

/-- One iteration of the `templated_number` row loop, carrying the
`already_seen_set` (a list with set membership) and the dictionary. -/
def tnStep (dale : Bool) (st : List Triple × SMDict) (row : CollapsedRow) :
    List Triple × SMDict :=
  let t := row.match_exists
  let s := decide (tripleOf row ∈ st.1)
  let d := set_scoring_and_mutation_dict row.query_name row.query_mutation_index t s st.2
  (if dale then tripleOf row :: st.1 else st.1, d)

/-- `templated_number(df, dale_method)`: the `(templated_number,
total_mutations)` pair (the Python floats are integral counts). -/
def templated_number (df : List CollapsedRow) (dale : Bool) : Nat × Nat :=
  let st := df.foldl (tnStep dale) ([], [])
  if dale then
    (st.2.countP (fun e => e.2.1 && !e.2.2), st.2.countP (fun e => !e.2.2))
  else
    (st.2.countP (fun e => e.2.1), st.2.length)

/-- The row step of `templated_number` specialized to
`dale_method=False`, where the `already_seen_set` stays empty and
`seen_before` is always `False`. -/
def tnStepF (d : SMDict) (row : CollapsedRow) : SMDict :=
  set_scoring_and_mutation_dict row.query_name row.query_mutation_index row.match_exists false d

/-- Whether a collapsed row contributes to the dictionary entry of `key`:
the key names the row's query and one of its mutation positions. -/
def touchB (key : SMKey) (r : CollapsedRow) : Bool :=
  decide (key.1 = r.query_name) && decide (key.2 ∈ r.query_mutation_index)

/-! ## The templated-fraction computed by the callers -/

/-- A Python float as the callers use it: a rational value or `nan`. -/
inductive PyVal where
  | num (q : ℚ)
  | nan
deriving DecidableEq, Repr

/-- Python float division: `ZeroDivisionError` whenever the divisor is
zero (also for a `nan` numerator), `nan` when either operand is `nan`. -/
def pyDiv : PyVal → PyVal → Except String PyVal
  | a, PyVal.num q =>
    if q = 0 then Except.error ("ZeroDivisionError")
    else
      match a with
      | PyVal.num p => Except.ok (PyVal.num (p / q))
      | PyVal.nan => Except.ok PyVal.nan
  | PyVal.nan, PyVal.nan => Except.ok PyVal.nan
  | PyVal.num _, PyVal.nan => Except.ok PyVal.nan

/-- The fraction `hits / coverage_denom` computed by `poly_motif_finder`
from its aggregate output. -/
def poly_motif_finder_frac (df : List CollapsedRow) (dale : Bool) : Except String PyVal :=
  let p := templated_number df dale
  pyDiv (PyVal.num (p.1 : ℚ)) (PyVal.num (p.2 : ℚ))

/-- The fraction `hits / n_mutations` computed by `motif_finder`, with
`n_mutations` the record count from `get_n_mutations`. -/
def motif_finder_frac (df : List CollapsedRow) (n_mutations : Nat) : Except String PyVal :=
  pyDiv (PyVal.num ((templated_number df false).1 : ℚ)) (PyVal.num (n_mutations : ℚ))

/-! ## Keys used by the correctness statements -/

/-- The grouping tuple of the collapsed output. -/
def groupKey (c : CollapsedRow) : String × List Int × String :=
  (c.query_name, c.query_mutation_index, c.mutated_base)

/-- The grouping tuple of a match row. -/
def matchKey (m : MatchRow) : String × List Int × String :=
  (m.query_name, m.query_mutation_index, m.mutated_base)

/-- The `(mutated_seq_id, mutation_index)` identity under which the partis
parser guarantees records are distinct. -/
def recKey (r : MutationRecord) : String × List Int :=
  (r.mutated_seq_id, r.mutation_index)

/-- The collapsed row a record contributes: all of a record's match rows
project to this single value. -/
def collapsedOf (kd : KmerDict) (k : Nat) (rec : MutationRecord) : CollapsedRow :=
  { query_sequence := rec.mutated_seq
    query_name := rec.mutated_seq_id
    query_mutation_index := rec.mutation_index
    naive_sequence := rec.naive_seq
    mutated_base := rec.mutated_base
    match_exists := recordFound kd k rec }

/-! ## Helper lemmas -/

theorem foldl_min_le_init (t : List Int) (a : Int) : t.foldl min a ≤ a := by
  induction t generalizing a with
  | nil => exact le_refl a
  | cons c t ih => exact le_trans (ih (min a c)) (min_le_left a c)

theorem foldl_min_le_mem {t : List Int} {b : Int} (h : b ∈ t) (a : Int) :
    t.foldl min a ≤ b := by
  induction t generalizing a with
  | nil => cases h
  | cons c t ih =>
    rcases List.mem_cons.mp h with rfl | hb
    · exact le_trans (foldl_min_le_init t (min a b)) (min_le_right a b)
    · exact ih hb (min a c)

theorem init_le_foldl_max (t : List Int) (a : Int) : a ≤ t.foldl max a := by
  induction t generalizing a with
  | nil => exact le_refl a
  | cons c t ih => exact le_trans (le_max_left a c) (ih (max a c))

theorem mem_le_foldl_max {t : List Int} {b : Int} (h : b ∈ t) (a : Int) :
    b ≤ t.foldl max a := by
  induction t generalizing a with
  | nil => cases h
  | cons c t ih =>
    rcases List.mem_cons.mp h with rfl | hb
    · exact le_trans (le_max_right a b) (init_le_foldl_max t (max a b))
    · exact ih hb (max a c)

theorem listMin_le {idx : List Int} {p : Int} (h : p ∈ idx) : listMin idx ≤ p := by
  cases idx with
  | nil => cases h
  | cons a t =>
    rcases List.mem_cons.mp h with rfl | hp
    · exact foldl_min_le_init t p
    · exact foldl_min_le_mem hp a

theorem le_listMax {idx : List Int} {p : Int} (h : p ∈ idx) : p ≤ listMax idx := by
  cases idx with
  | nil => cases h
  | cons a t =>
    rcases List.mem_cons.mp h with rfl | hp
    · exact init_le_foldl_max t p
    · exact mem_le_foldl_max hp a

theorem listMin_le_listMax : ∀ idx : List Int, listMin idx ≤ listMax idx
  | [] => le_refl 0
  | a :: t => le_trans (foldl_min_le_init t a) (init_le_foldl_max t a)

theorem mem_intRangeGo {n : Nat} {lo s : Int} :
    s ∈ intRangeGo n lo ↔ lo ≤ s ∧ s < lo + n := by
  induction n generalizing lo with
  | zero => simp [intRangeGo]
  | succ n ih =>
    rw [intRangeGo]
    simp only [List.mem_cons, ih]
    omega

theorem mem_intRange {lo hi s : Int} : s ∈ intRange lo hi ↔ lo ≤ s ∧ s ≤ hi := by
  rw [intRange, mem_intRangeGo]
  omega

theorem mem_pyDedupGo {α : Type} [DecidableEq α] {l seen : List α} {a : α} :
    a ∈ pyDedupGo l seen ↔ a ∈ l ∧ a ∉ seen := by
  induction l generalizing seen with
  | nil => simp [pyDedupGo]
  | cons b l ih =>
    rw [pyDedupGo]
    by_cases hb : b ∈ seen
    · rw [if_pos hb, ih]
      constructor
      · rintro ⟨h1, h2⟩
        exact ⟨List.mem_cons_of_mem b h1, h2⟩
      · rintro ⟨h1, h2⟩
        rcases List.mem_cons.mp h1 with rfl | h1
        · exact absurd hb h2
        · exact ⟨h1, h2⟩
    · rw [if_neg hb]
      by_cases hab : a = b
      · subst hab
        simp [hb]
      · simp only [List.mem_cons, ih, List.mem_cons]
        constructor
        · rintro (rfl | ⟨h1, h2⟩)
          · exact absurd rfl hab
          · exact ⟨Or.inr h1, fun hs => h2 (Or.inr hs)⟩
        · rintro ⟨h1, h2⟩
          rcases h1 with rfl | h1
          · exact absurd rfl hab
          · refine Or.inr ⟨h1, fun hs => ?_⟩
            rcases hs with rfl | hs
            · exact hab rfl
            · exact h2 hs

theorem mem_pyDedup {α : Type} [DecidableEq α] {l : List α} {a : α} :
    a ∈ pyDedup l ↔ a ∈ l := by
  rw [pyDedup, mem_pyDedupGo]
  simp

theorem pyDedupGo_nodup {α : Type} [DecidableEq α] (l seen : List α) :
    (pyDedupGo l seen).Nodup := by
  induction l generalizing seen with
  | nil => simp [pyDedupGo]
  | cons b l ih =>
    rw [pyDedupGo]
    by_cases hb : b ∈ seen
    · rw [if_pos hb]
      exact ih seen
    · rw [if_neg hb]
      refine List.nodup_cons.mpr ⟨fun hmem => ?_, ih (b :: seen)⟩
      exact (mem_pyDedupGo.mp hmem).2 (List.mem_cons_self b seen)

theorem pyDedup_nodup {α : Type} [DecidableEq α] (l : List α) : (pyDedup l).Nodup :=
  pyDedupGo_nodup l []

/-! ## C5: seed_starts bounds and window containment -/

/-- C5. For a non-empty index set, `seed_starts` returns exactly
`(max(0, max(idx) - w + 1), min(n - w, min(idx)))`, and every start in that
closed range gives a window `[start, start + w)` inside `[0, n)` that
contains every index. -/
theorem seed_starts_window (idx : List Int) (w n : Int) (_hne : idx ≠ []) :
    seed_starts idx w n = (max 0 (listMax idx - w + 1), min (n - w) (listMin idx)) ∧
    ∀ start : Int, (seed_starts idx w n).1 ≤ start → start ≤ (seed_starts idx w n).2 →
      0 ≤ start ∧ start + w ≤ n ∧ ∀ p ∈ idx, start ≤ p ∧ p < start + w := by
  refine ⟨rfl, fun start h1 h2 => ?_⟩
  simp only [seed_starts] at h1 h2
  have hlo : start ≤ listMin idx := le_trans h2 (min_le_right _ _)
  have hn : start ≤ n - w := le_trans h2 (min_le_left _ _)
  have h0 : (0 : Int) ≤ start := le_trans (le_max_left _ _) h1
  have hhi : listMax idx - w + 1 ≤ start := le_trans (le_max_right _ _) h1
  refine ⟨h0, by omega, fun p hp => ?_⟩
  have := listMin_le hp
  have := le_listMax hp
  omega

/-- Witness for C5 at the test values `idx = [8, 9]`, `w = 4`, `n = 10`. -/
theorem seed_starts_window_witness :
    ([(8 : Int), 9] ≠ []) ∧
    (seed_starts [(8 : Int), 9] 4 10 =
        (max 0 (listMax [(8 : Int), 9] - 4 + 1), min (10 - 4) (listMin [(8 : Int), 9])) ∧
      ∀ start : Int, (seed_starts [(8 : Int), 9] 4 10).1 ≤ start →
        start ≤ (seed_starts [(8 : Int), 9] 4 10).2 →
        0 ≤ start ∧ start + 4 ≤ 10 ∧ ∀ p ∈ [(8 : Int), 9], start ≤ p ∧ p < start + 4) :=
  ⟨by decide, seed_starts_window [8, 9] 4 10 (by decide)⟩

/-! ## The k-mer dictionary characterization -/

theorem mem_occInsert {occs : List Occ} {o o0 : Occ} :
    o ∈ occInsert occs o0 ↔ o ∈ occs ∨ o = o0 := by
  unfold occInsert
  by_cases h : o0 ∈ occs
  · rw [if_pos h]
    constructor
    · exact Or.inl
    · rintro (ho | rfl)
      · exact ho
      · exact h
  · rw [if_neg h]
    simp

theorem dictOccs_dictInsert {d : KmerDict} {km s : List Char} {o o0 : Occ} :
    o ∈ dictOccs (dictInsert d km o0) s ↔ o ∈ dictOccs d s ∨ (s = km ∧ o = o0) := by
  induction d with
  | nil =>
    by_cases hs : km = s
    · subst hs
      simp [dictInsert, dictOccs]
    · simp only [dictInsert, dictOccs, if_neg hs, List.not_mem_nil, false_or]
      constructor
      · intro h
        exact h.elim
      · rintro ⟨h, _⟩
        exact hs h.symm
  | cons e rest ih =>
    obtain ⟨k0, occs⟩ := e
    by_cases hk : k0 = km
    · subst hk
      rw [dictInsert, if_pos rfl]
      by_cases hs : k0 = s
      · subst hs
        rw [dictOccs, if_pos rfl, dictOccs, if_pos rfl]
        simp only [List.mem_append, mem_occInsert]
        tauto
      · rw [dictOccs, if_neg hs, dictOccs, if_neg hs]
        have : ¬ s = k0 := fun h => hs h.symm
        tauto
    · rw [dictInsert, if_neg hk]
      by_cases hs : k0 = s
      · subst hs
        rw [dictOccs, if_pos rfl, dictOccs, if_pos rfl]
        simp only [List.mem_append, ih]
        tauto
      · rw [dictOccs, if_neg hs, dictOccs, if_neg hs]
        exact ih

theorem dictOccs_foldl_inserts {q : List Char} {nm : String} {k : Nat}
    (L : List Nat) (d : KmerDict) (s : List Char) (o : Occ) :
    o ∈ dictOccs (L.foldl
        (fun d start => dictInsert d (substringAt q start k) (nm, q, start)) d) s ↔
      o ∈ dictOccs d s ∨ ∃ start ∈ L, s = substringAt q start k ∧ o = (nm, q, start) := by
  induction L generalizing d with
  | nil => simp
  | cons a L ih =>
    rw [List.foldl_cons, ih, dictOccs_dictInsert]
    constructor
    · rintro ((h | h) | ⟨start, hs, h⟩)
      · exact Or.inl h
      · exact Or.inr ⟨a, List.mem_cons_self a L, h.1, h.2⟩
      · exact Or.inr ⟨start, List.mem_cons_of_mem a hs, h⟩
    · rintro (h | ⟨start, hs, h⟩)
      · exact Or.inl (Or.inl h)
      · rcases List.mem_cons.mp hs with rfl | hs
        · exact Or.inl (Or.inr h)
        · exact Or.inr ⟨start, hs, h⟩

theorem dictOccs_addRefKmers {k : Nat} {d : KmerDict} {ref : RefRecord}
    {s : List Char} {o : Occ} :
    o ∈ dictOccs (addRefKmers k d ref) s ↔
      o ∈ dictOccs d s ∨ ∃ start : Nat, start + k ≤ ref.seq.length ∧
        s = substringAt ref.seq start k ∧ o = (ref.name, ref.seq, start) := by
  unfold addRefKmers
  rw [dictOccs_foldl_inserts]
  constructor
  · rintro (h | ⟨start, hs, h⟩)
    · exact Or.inl h
    · exact Or.inr ⟨start, by have := List.mem_range.mp hs; omega, h⟩
  · rintro (h | ⟨start, hs, h⟩)
    · exact Or.inl h
    · exact Or.inr ⟨start, List.mem_range.mpr (by omega), h⟩

theorem dictOccs_foldl_refs (refs : List RefRecord) (k : Nat) (d : KmerDict)
    (s : List Char) (o : Occ) :
    o ∈ dictOccs (refs.foldl (addRefKmers k) d) s ↔
      o ∈ dictOccs d s ∨ ∃ ref ∈ refs, ∃ start : Nat, start + k ≤ ref.seq.length ∧
        s = substringAt ref.seq start k ∧ o = (ref.name, ref.seq, start) := by
  induction refs generalizing d with
  | nil => simp
  | cons r refs ih =>
    rw [List.foldl_cons, ih, dictOccs_addRefKmers]
    constructor
    · rintro ((h | ⟨start, h⟩) | ⟨ref, hr, start, h⟩)
      · exact Or.inl h
      · exact Or.inr ⟨r, List.mem_cons_self r refs, start, h⟩
      · exact Or.inr ⟨ref, List.mem_cons_of_mem r hr, start, h⟩
    · rintro (h | ⟨ref, hr, start, h⟩)
      · exact Or.inl (Or.inl h)
      · rcases List.mem_cons.mp hr with rfl | hr
        · exact Or.inl (Or.inr ⟨start, h⟩)
        · exact Or.inr ⟨ref, hr, start, h⟩

/-- Membership characterization of the built dictionary: the occurrences
stored under a key are exactly the in-bounds windows of the indexed
references whose substring equals the key. -/
theorem mem_make_kmer_dictionary {refs : List RefRecord} {k : Nat} {rc : Bool}
    {s : List Char} {o : Occ} :
    o ∈ dictOccs (make_kmer_dictionary refs k rc) s ↔
      ∃ ref ∈ indexedRefs refs rc, ∃ start : Nat, start + k ≤ ref.seq.length ∧
        s = substringAt ref.seq start k ∧ o = (ref.name, ref.seq, start) := by
  unfold make_kmer_dictionary
  rw [dictOccs_foldl_refs]
  simp [dictOccs]

/-! ## C7: the dictionary maps keys to exactly the matching windows -/

/-- C7. For `k ≥ 1`, a triple is stored under a key of
`make_kmer_dictionary` iff it names an indexed reference (real or
reverse-complement synthetic) together with an offset at which the
length-`k` substring of that reference equals the key; in particular every
stored offset satisfies `offset + k ≤ len(reference)`, so references
shorter than `k` contribute nothing. -/
theorem make_kmer_dictionary_exact (refs : List RefRecord) (k : Nat) (rc : Bool)
    (_hk : 1 ≤ k) (s : List Char) (o : Occ) :
    (o ∈ dictOccs (make_kmer_dictionary refs k rc) s ↔
      ∃ ref ∈ indexedRefs refs rc, ∃ start : Nat, start + k ≤ ref.seq.length ∧
        substringAt ref.seq start k = s ∧ o = (ref.name, ref.seq, start)) ∧
    (o ∈ dictOccs (make_kmer_dictionary refs k rc) s →
      o.2.2 + k ≤ o.2.1.length) := by
  constructor
  · rw [mem_make_kmer_dictionary]
    constructor
    · rintro ⟨ref, hr, start, h1, h2, h3⟩
      exact ⟨ref, hr, start, h1, h2.symm, h3⟩
    · rintro ⟨ref, hr, start, h1, h2, h3⟩
      exact ⟨ref, hr, start, h1, h2.symm, h3⟩
  · intro h
    obtain ⟨ref, _, start, h1, _, rfl⟩ := mem_make_kmer_dictionary.mp h
    exact h1

/-- Witness for C7: with reference `ATA` and `k = 2`, the occurrence
`(r1, ATA, 1)` stored under the key `TA`. -/
theorem make_kmer_dictionary_exact_witness :
    (1 ≤ 2) ∧
    (((("r1", ['A', 'T', 'A'], 1) : Occ) ∈
        dictOccs (make_kmer_dictionary [⟨"r1", ['A', 'T', 'A']⟩] 2 false) ['T', 'A'] ↔
      ∃ ref ∈ indexedRefs [⟨"r1", ['A', 'T', 'A']⟩] false, ∃ start : Nat,
        start + 2 ≤ ref.seq.length ∧ substringAt ref.seq start 2 = ['T', 'A'] ∧
        (("r1", ['A', 'T', 'A'], 1) : Occ) = (ref.name, ref.seq, start)) ∧
    ((("r1", ['A', 'T', 'A'], 1) : Occ) ∈
        dictOccs (make_kmer_dictionary [⟨"r1", ['A', 'T', 'A']⟩] 2 false) ['T', 'A'] →
      ((("r1", ['A', 'T', 'A'], 1) : Occ)).2.2 + 2 ≤
        ((("r1", ['A', 'T', 'A'], 1) : Occ)).2.1.length)) :=
  ⟨by decide, make_kmer_dictionary_exact [⟨"r1", ['A', 'T', 'A']⟩] 2 false (by decide)
    ['T', 'A'] ("r1", ['A', 'T', 'A'], 1)⟩

/-! ## Dictionary key and value facts -/

theorem dictHasKey_of_occs_ne_nil {d : KmerDict} {s : List Char}
    (h : dictOccs d s ≠ []) : dictHasKey d s = true := by
  induction d with
  | nil => exact absurd rfl h
  | cons e rest ih =>
    obtain ⟨k0, occs⟩ := e
    rw [dictHasKey]
    by_cases hk : k0 = s
    · simp [hk]
    · rw [dictOccs, if_neg hk] at h
      simp [hk, ih h]

theorem dictInsert_values_ne_nil {d : KmerDict} {km : List Char} {o : Occ}
    (h : ∀ e ∈ d, e.2 ≠ []) : ∀ e ∈ dictInsert d km o, e.2 ≠ [] := by
  induction d with
  | nil =>
    intro e he
    rw [dictInsert] at he
    rcases List.mem_singleton.mp he with rfl
    simp
  | cons e0 rest ih =>
    obtain ⟨k0, occs⟩ := e0
    intro e he
    rw [dictInsert] at he
    by_cases hk : k0 = km
    · rw [if_pos hk] at he
      rcases List.mem_cons.mp he with rfl | he
      · have : occs ≠ [] := h (k0, occs) (List.mem_cons_self _ _)
        simp only [occInsert]
        split
        · exact this
        · simp
      · exact h e (List.mem_cons_of_mem _ he)
    · rw [if_neg hk] at he
      rcases List.mem_cons.mp he with rfl | he
      · exact h (k0, occs) (List.mem_cons_self _ _)
      · exact ih (fun e' he' => h e' (List.mem_cons_of_mem _ he')) e he

theorem make_kmer_dictionary_values_ne_nil (refs : List RefRecord) (k : Nat) (rc : Bool) :
    ∀ e ∈ make_kmer_dictionary refs k rc, e.2 ≠ [] := by
  unfold make_kmer_dictionary
  generalize indexedRefs refs rc = rl
  have base : ∀ (d : KmerDict), (∀ e ∈ d, e.2 ≠ []) →
      ∀ e ∈ rl.foldl (addRefKmers k) d, e.2 ≠ [] := by
    induction rl with
    | nil => intro d hd; exact hd
    | cons r rl ih =>
      intro d hd
      rw [List.foldl_cons]
      refine ih _ ?_
      unfold addRefKmers
      generalize List.range (r.seq.length + 1 - k) = starts
      induction starts generalizing d with
      | nil => exact hd
      | cons a starts ih2 =>
        rw [List.foldl_cons]
        exact ih2 _ (dictInsert_values_ne_nil hd)
  exact base [] (by simp)

theorem dictOccs_ne_nil_of_hasKey {refs : List RefRecord} {k : Nat} {rc : Bool}
    {s : List Char} (h : dictHasKey (make_kmer_dictionary refs k rc) s = true) :
    dictOccs (make_kmer_dictionary refs k rc) s ≠ [] := by
  have hv := make_kmer_dictionary_values_ne_nil refs k rc
  generalize hd : make_kmer_dictionary refs k rc = d at h hv
  clear hd
  induction d with
  | nil => simp [dictHasKey] at h
  | cons e rest ih =>
    obtain ⟨k0, occs⟩ := e
    rw [dictHasKey, Bool.or_eq_true, decide_eq_true_eq] at h
    by_cases hk : k0 = s
    · rw [dictOccs, if_pos hk]
      have : occs ≠ [] := hv (k0, occs) (List.mem_cons_self _ _)
      intro hcon
      exact this (List.append_eq_nil.mp hcon).1
    · rw [dictOccs, if_neg hk]
      rcases h with h | h
      · exact absurd h hk
      · exact ih h (fun e' he' => hv e' (List.mem_cons_of_mem _ he'))

/-! ## C4: alignment of emitted hit rows -/

/-- C4. For any window start in the seed range and any occurrence the
dictionary returns for the seed at that start, the per-record loop emits
the match row whose `reference_alignment` is
`ref_offset + (min(positions) - start)`. -/
theorem hit_row_emitted (kd : KmerDict) (k : Nat) (rec : MutationRecord)
    (start : Int) (occ : Occ) (hs : start ∈ seedRange k rec)
    (ho : occ ∈ dictOccs kd (substringAt rec.mutated_seq start.toNat k)) :
    mkMatchRow rec occ ((occ.2.2 : Int) + (listMin rec.mutation_index - start)) ∈
        recordMatchRows kd k rec ∧
      (mkMatchRow rec occ ((occ.2.2 : Int) + (listMin rec.mutation_index - start))
          ).reference_alignment =
        some ((occ.2.2 : Int) + (listMin rec.mutation_index - start)) := by
  have hkey : dictHasKey kd (substringAt rec.mutated_seq start.toNat k) = true :=
    dictHasKey_of_occs_ne_nil (fun hnil => by rw [hnil] at ho; cases ho)
  have hfound : recordFound kd k rec = true :=
    List.any_eq_true.mpr ⟨start, hs, hkey⟩
  refine ⟨?_, rfl⟩
  rw [recordMatchRows, if_pos hfound]
  exact List.mem_flatMap.mpr ⟨start, hs, List.mem_map.mpr ⟨occ, ho, rfl⟩⟩

/-- Witness for C4 at the `test_imf` data: query `AAAAAAAA` mutated at 7,
references `ATA`/`CAA`, `k = 2`, start 6, occurrence `(r2, CAA, 1)`. -/
theorem hit_row_emitted_witness :
    ((6 : Int) ∈ seedRange 2
        ⟨['A', 'A', 'A', 'A', 'A', 'A', 'A', 'A'], ['A', 'A', 'A', 'A', 'A', 'A', 'A', 'G'],
          "s1", [7], "A"⟩) ∧
    ((("r2", ['C', 'A', 'A'], 1) : Occ) ∈
      dictOccs (make_kmer_dictionary [⟨"r1", ['A', 'T', 'A']⟩, ⟨"r2", ['C', 'A', 'A']⟩] 2 false)
        (substringAt ['A', 'A', 'A', 'A', 'A', 'A', 'A', 'A'] (Int.toNat 6) 2)) ∧
    (mkMatchRow
        ⟨['A', 'A', 'A', 'A', 'A', 'A', 'A', 'A'], ['A', 'A', 'A', 'A', 'A', 'A', 'A', 'G'],
          "s1", [7], "A"⟩ ("r2", ['C', 'A', 'A'], 1)
        (((("r2", ['C', 'A', 'A'], 1) : Occ).2.2 : Int) + (listMin [7] - 6)) ∈
        recordMatchRows
          (make_kmer_dictionary [⟨"r1", ['A', 'T', 'A']⟩, ⟨"r2", ['C', 'A', 'A']⟩] 2 false) 2
          ⟨['A', 'A', 'A', 'A', 'A', 'A', 'A', 'A'], ['A', 'A', 'A', 'A', 'A', 'A', 'A', 'G'],
            "s1", [7], "A"⟩ ∧
      (mkMatchRow
          ⟨['A', 'A', 'A', 'A', 'A', 'A', 'A', 'A'], ['A', 'A', 'A', 'A', 'A', 'A', 'A', 'G'],
            "s1", [7], "A"⟩ ("r2", ['C', 'A', 'A'], 1)
          (((("r2", ['C', 'A', 'A'], 1) : Occ).2.2 : Int) + (listMin [7] - 6))
          ).reference_alignment =
        some (((("r2", ['C', 'A', 'A'], 1) : Occ).2.2 : Int) + (listMin [7] - 6))) :=
  ⟨by decide, by decide,
    hit_row_emitted _ 2 _ 6 ("r2", ['C', 'A', 'A'], 1) (by decide) (by decide)⟩

/-! ## C6: the no-match row -/

/-- C6. If the index returns no occurrence for any window across the whole
seed range, the per-record loop emits exactly the single no-match row:
absent alignment, empty reference name and sequence. -/
theorem no_match_single_row (refs : List RefRecord) (k : Nat) (rc : Bool)
    (rec : MutationRecord)
    (h : ∀ start ∈ seedRange k rec,
      dictOccs (make_kmer_dictionary refs k rc)
        (substringAt rec.mutated_seq start.toNat k) = []) :
    recordMatchRows (make_kmer_dictionary refs k rc) k rec = [noMatchRow rec] ∧
      (noMatchRow rec).reference_alignment = none ∧
      (noMatchRow rec).reference_name = "" ∧
      (noMatchRow rec).reference_sequence = [] := by
  have hfound : recordFound (make_kmer_dictionary refs k rc) k rec = false := by
    rw [recordFound, List.any_eq_false]
    intro start hs hkey
    exact dictOccs_ne_nil_of_hasKey hkey (h start hs)
  rw [recordMatchRows, hfound]
  exact ⟨rfl, rfl, rfl, rfl⟩

/-- Witness for C6 at the `test_no_alignments` data: query `AAAAAAAA`
mutated at 7, references `TTTT`/`TCTC`, `k = 3`. -/
theorem no_match_single_row_witness :
    (∀ start ∈ seedRange 3
        ⟨['A', 'A', 'A', 'A', 'A', 'A', 'A', 'A'], ['A', 'A', 'A', 'A', 'A', 'A', 'A', 'G'],
          "s1", [7], "A"⟩,
      dictOccs (make_kmer_dictionary [⟨"r1", ['T', 'T', 'T', 'T']⟩, ⟨"r2", ['T', 'C', 'T', 'C']⟩] 3 false)
        (substringAt ['A', 'A', 'A', 'A', 'A', 'A', 'A', 'A'] start.toNat 3) = []) ∧
    (recordMatchRows
        (make_kmer_dictionary [⟨"r1", ['T', 'T', 'T', 'T']⟩, ⟨"r2", ['T', 'C', 'T', 'C']⟩] 3 false) 3
        ⟨['A', 'A', 'A', 'A', 'A', 'A', 'A', 'A'], ['A', 'A', 'A', 'A', 'A', 'A', 'A', 'G'],
          "s1", [7], "A"⟩ =
        [noMatchRow
          ⟨['A', 'A', 'A', 'A', 'A', 'A', 'A', 'A'], ['A', 'A', 'A', 'A', 'A', 'A', 'A', 'G'],
            "s1", [7], "A"⟩] ∧
      (noMatchRow
          ⟨['A', 'A', 'A', 'A', 'A', 'A', 'A', 'A'], ['A', 'A', 'A', 'A', 'A', 'A', 'A', 'G'],
            "s1", [7], "A"⟩).reference_alignment = none ∧
      (noMatchRow
          ⟨['A', 'A', 'A', 'A', 'A', 'A', 'A', 'A'], ['A', 'A', 'A', 'A', 'A', 'A', 'A', 'G'],
            "s1", [7], "A"⟩).reference_name = "" ∧
      (noMatchRow
          ⟨['A', 'A', 'A', 'A', 'A', 'A', 'A', 'A'], ['A', 'A', 'A', 'A', 'A', 'A', 'A', 'G'],
            "s1", [7], "A"⟩).reference_sequence = []) :=
  ⟨by decide, no_match_single_row _ 3 false _ (by decide)⟩

/-! ## C9: a defined alignment points inside its reference -/

theorem mem_recordHits {kd : KmerDict} {k : Nat} {rec : MutationRecord} {m : MatchRow} :
    m ∈ recordHits kd k rec ↔
      ∃ start ∈ seedRange k rec,
        ∃ occ ∈ dictOccs kd (substringAt rec.mutated_seq start.toNat k),
          m = mkMatchRow rec occ ((occ.2.2 : Int) + (listMin rec.mutation_index - start)) := by
  unfold recordHits
  rw [List.mem_flatMap]
  constructor
  · rintro ⟨start, hs, hm⟩
    obtain ⟨occ, ho, rfl⟩ := List.mem_map.mp hm
    exact ⟨start, hs, occ, ho, rfl⟩
  · rintro ⟨start, hs, occ, ho, rfl⟩
    exact ⟨start, hs, List.mem_map.mpr ⟨occ, ho, rfl⟩⟩

/-- C9. For in-bounds mutation positions, every row of
`indexed_motif_finder` over a built dictionary whose alignment is defined
has `0 ≤ reference_alignment ≤ len(reference_sequence) - 1`. -/
theorem alignment_within_reference (refs : List RefRecord) (k : Nat) (rc : Bool)
    (muts : List MutationRecord)
    (_hb : ∀ rec ∈ muts, ∀ p ∈ rec.mutation_index, 0 ≤ p ∧ p < (rec.mutated_seq.length : Int))
    (m : MatchRow) (hm : m ∈ indexed_motif_finder muts (make_kmer_dictionary refs k rc) k)
    (a : Int) (ha : m.reference_alignment = some a) :
    0 ≤ a ∧ a ≤ (m.reference_sequence.length : Int) - 1 := by
  rw [indexed_motif_finder, mem_pyDedup, List.mem_flatMap] at hm
  obtain ⟨rec, _, hmr⟩ := hm
  rw [recordMatchRows] at hmr
  by_cases hf : recordFound (make_kmer_dictionary refs k rc) k rec = true
  · rw [if_pos hf] at hmr
    obtain ⟨start, hs, occ, ho, rfl⟩ := mem_recordHits.mp hmr
    obtain ⟨ref, _, st2, hlen, _, rfl⟩ := mem_make_kmer_dictionary.mp ho
    have hv : a = ((st2 : Int) + (listMin rec.mutation_index - start)) :=
      (Option.some.inj ha).symm
    subst hv
    have hminmax := listMin_le_listMax rec.mutation_index
    rw [seedRange] at hs
    have hrange := mem_intRange.mp hs
    simp only [seed_starts] at hrange
    show 0 ≤ (st2 : Int) + (listMin rec.mutation_index - start) ∧
      (st2 : Int) + (listMin rec.mutation_index - start) ≤ (ref.seq.length : Int) - 1
    omega
  · rw [if_neg hf] at hmr
    rcases List.mem_singleton.mp hmr with rfl
    cases ha

/-- Witness for C9 at the `test_imf` data: the emitted row with alignment 2
inside the reference `CAA` of length 3. -/
theorem alignment_within_reference_witness :
    (∀ rec ∈ [(⟨['A', 'A', 'A', 'A', 'A', 'A', 'A', 'A'],
        ['A', 'A', 'A', 'A', 'A', 'A', 'A', 'G'], "s1", [7], "A"⟩ : MutationRecord)],
      ∀ p ∈ rec.mutation_index, 0 ≤ p ∧ p < (rec.mutated_seq.length : Int)) ∧
    (mkMatchRow
        ⟨['A', 'A', 'A', 'A', 'A', 'A', 'A', 'A'], ['A', 'A', 'A', 'A', 'A', 'A', 'A', 'G'],
          "s1", [7], "A"⟩ ("r2", ['C', 'A', 'A'], 1) 2 ∈
      indexed_motif_finder
        [⟨['A', 'A', 'A', 'A', 'A', 'A', 'A', 'A'], ['A', 'A', 'A', 'A', 'A', 'A', 'A', 'G'],
          "s1", [7], "A"⟩]
        (make_kmer_dictionary [⟨"r1", ['A', 'T', 'A']⟩, ⟨"r2", ['C', 'A', 'A']⟩] 2 false) 2) ∧
    ((mkMatchRow
        ⟨['A', 'A', 'A', 'A', 'A', 'A', 'A', 'A'], ['A', 'A', 'A', 'A', 'A', 'A', 'A', 'G'],
          "s1", [7], "A"⟩ ("r2", ['C', 'A', 'A'], 1) 2).reference_alignment = some 2) ∧
    (0 ≤ (2 : Int) ∧ (2 : Int) ≤
      ((mkMatchRow
          ⟨['A', 'A', 'A', 'A', 'A', 'A', 'A', 'A'], ['A', 'A', 'A', 'A', 'A', 'A', 'A', 'G'],
            "s1", [7], "A"⟩ ("r2", ['C', 'A', 'A'], 1) 2).reference_sequence.length : Int) - 1) :=
  ⟨by decide, by decide, by decide,
    alignment_within_reference [⟨"r1", ['A', 'T', 'A']⟩, ⟨"r2", ['C', 'A', 'A']⟩] 2 false
      [⟨['A', 'A', 'A', 'A', 'A', 'A', 'A', 'A'], ['A', 'A', 'A', 'A', 'A', 'A', 'A', 'G'],
        "s1", [7], "A"⟩] (by decide)
      (mkMatchRow
        ⟨['A', 'A', 'A', 'A', 'A', 'A', 'A', 'A'], ['A', 'A', 'A', 'A', 'A', 'A', 'A', 'G'],
          "s1", [7], "A"⟩ ("r2", ['C', 'A', 'A'], 1) 2) (by decide) 2 (by decide)⟩

/-! ## C2: the collapsed output -/

theorem collapseRow_of_recordMatchRows {kd : KmerDict} {k : Nat} {rec : MutationRecord}
    {m : MatchRow} (h : m ∈ recordMatchRows kd k rec) :
    collapseRow m = collapsedOf kd k rec ∧
      m.reference_alignment.isSome = recordFound kd k rec := by
  rw [recordMatchRows] at h
  by_cases hf : recordFound kd k rec = true
  · rw [if_pos hf] at h
    obtain ⟨start, _, occ, _, rfl⟩ := mem_recordHits.mp h
    constructor
    · simp [collapseRow, mkMatchRow, collapsedOf, hf]
    · simp [mkMatchRow, hf]
  · rw [if_neg hf] at h
    rcases List.mem_singleton.mp h with rfl
    rw [Bool.not_eq_true] at hf
    constructor
    · simp [collapseRow, noMatchRow, collapsedOf, hf]
    · simp [noMatchRow, hf]

theorem mem_collapsed_iff {muts : List MutationRecord} {kd : KmerDict} {k : Nat}
    {c : CollapsedRow} :
    c ∈ indexed_motif_finder_collapsed muts kd k ↔
      ∃ m ∈ muts.flatMap (recordMatchRows kd k), collapseRow m = c := by
  rw [indexed_motif_finder_collapsed, mem_pyDedup, List.mem_map]
  constructor
  · rintro ⟨m, hm, rfl⟩
    rw [indexed_motif_finder, mem_pyDedup] at hm
    exact ⟨m, hm, rfl⟩
  · rintro ⟨m, hm, rfl⟩
    exact ⟨m, by rw [indexed_motif_finder, mem_pyDedup]; exact hm, rfl⟩

/-- C2. When the records are distinct on `(mutated_seq_id, mutation_index)`
(the parser contract), the collapsed output has no duplicate rows, carries
exactly one row per distinct `(query_name, query_mutation_index,
mutated_base)` tuple of the match rows (at most one by key-injectivity, at
least one per match row's tuple), and each row's `match_exists` is true iff
some match row of the same tuple has a defined `reference_alignment`. -/
theorem collapsed_one_row_per_group (muts : List MutationRecord) (kd : KmerDict) (k : Nat)
    (hk : (muts.map recKey).Nodup) :
    (indexed_motif_finder_collapsed muts kd k).Nodup ∧
    (∀ c1 ∈ indexed_motif_finder_collapsed muts kd k,
      ∀ c2 ∈ indexed_motif_finder_collapsed muts kd k, groupKey c1 = groupKey c2 → c1 = c2) ∧
    (∀ m ∈ indexed_motif_finder muts kd k,
      ∃ c ∈ indexed_motif_finder_collapsed muts kd k, groupKey c = matchKey m) ∧
    (∀ c ∈ indexed_motif_finder_collapsed muts kd k,
      (c.match_exists = true ↔
        ∃ m ∈ indexed_motif_finder muts kd k,
          matchKey m = groupKey c ∧ m.reference_alignment.isSome = true)) := by
  have hinj : ∀ r1 ∈ muts, ∀ r2 ∈ muts, recKey r1 = recKey r2 → r1 = r2 :=
    fun r1 h1 r2 h2 he => List.inj_on_of_nodup_map hk h1 h2 he
  refine ⟨pyDedup_nodup _, ?_, ?_, ?_⟩
  · intro c1 hc1 c2 hc2 hg
    obtain ⟨m1, hm1, rfl⟩ := mem_collapsed_iff.mp hc1
    obtain ⟨m2, hm2, rfl⟩ := mem_collapsed_iff.mp hc2
    obtain ⟨rec1, hr1, hmm1⟩ := List.mem_flatMap.mp hm1
    obtain ⟨rec2, hr2, hmm2⟩ := List.mem_flatMap.mp hm2
    have e1 := (collapseRow_of_recordMatchRows hmm1).1
    have e2 := (collapseRow_of_recordMatchRows hmm2).1
    rw [e1, e2] at hg ⊢
    have hkey : recKey rec1 = recKey rec2 := by
      have : (rec1.mutated_seq_id, rec1.mutation_index, rec1.mutated_base) =
          (rec2.mutated_seq_id, rec2.mutation_index, rec2.mutated_base) := hg
      rw [recKey, recKey]
      rw [Prod.mk.injEq] at this ⊢
      exact ⟨this.1, (Prod.mk.injEq _ _ _ _).mp this.2 |>.1⟩
    rw [hinj rec1 hr1 rec2 hr2 hkey]
  · intro m hm
    rw [indexed_motif_finder, mem_pyDedup] at hm
    exact ⟨collapseRow m, mem_collapsed_iff.mpr ⟨m, hm, rfl⟩, rfl⟩
  · intro c hc
    obtain ⟨m0, hm0, rfl⟩ := mem_collapsed_iff.mp hc
    constructor
    · intro hme
      refine ⟨m0, by rw [indexed_motif_finder, mem_pyDedup]; exact hm0, rfl, ?_⟩
      exact hme
    · rintro ⟨m, hm, hkey, hsome⟩
      rw [indexed_motif_finder, mem_pyDedup] at hm
      obtain ⟨rec1, hr1, hmm1⟩ := List.mem_flatMap.mp hm0
      obtain ⟨rec2, hr2, hmm2⟩ := List.mem_flatMap.mp hm
      have e1 := collapseRow_of_recordMatchRows hmm1
      have e2 := collapseRow_of_recordMatchRows hmm2
      have hgk : groupKey (collapseRow m) = groupKey (collapseRow m0) := hkey
      rw [e1.1, e2.1] at hgk
      have hkey12 : recKey rec2 = recKey rec1 := by
        have : (rec2.mutated_seq_id, rec2.mutation_index, rec2.mutated_base) =
            (rec1.mutated_seq_id, rec1.mutation_index, rec1.mutated_base) := hgk
        rw [recKey, recKey]
        rw [Prod.mk.injEq] at this ⊢
        exact ⟨this.1, (Prod.mk.injEq _ _ _ _).mp this.2 |>.1⟩
      have hrec : rec2 = rec1 := hinj rec2 hr2 rec1 hr1 hkey12
      show (collapseRow m0).match_exists = true
      have : (collapseRow m0).match_exists = recordFound kd k rec1 := by
        rw [e1.1]; rfl
      rw [this, ← hrec, ← e2.2]
      exact hsome

/-- Witness for C2 at the `test_imf` data. -/
theorem collapsed_one_row_per_group_witness :
    (([(⟨['A', 'A', 'A', 'A', 'A', 'A', 'A', 'A'], ['A', 'A', 'A', 'A', 'A', 'A', 'A', 'G'],
        "s1", [7], "A"⟩ : MutationRecord)].map recKey).Nodup) ∧
    ((indexed_motif_finder_collapsed
        [⟨['A', 'A', 'A', 'A', 'A', 'A', 'A', 'A'], ['A', 'A', 'A', 'A', 'A', 'A', 'A', 'G'],
          "s1", [7], "A"⟩]
        (make_kmer_dictionary [⟨"r1", ['A', 'T', 'A']⟩, ⟨"r2", ['C', 'A', 'A']⟩] 2 false)
        2).Nodup ∧
    (∀ c1 ∈ indexed_motif_finder_collapsed
        [⟨['A', 'A', 'A', 'A', 'A', 'A', 'A', 'A'], ['A', 'A', 'A', 'A', 'A', 'A', 'A', 'G'],
          "s1", [7], "A"⟩]
        (make_kmer_dictionary [⟨"r1", ['A', 'T', 'A']⟩, ⟨"r2", ['C', 'A', 'A']⟩] 2 false) 2,
      ∀ c2 ∈ indexed_motif_finder_collapsed
        [⟨['A', 'A', 'A', 'A', 'A', 'A', 'A', 'A'], ['A', 'A', 'A', 'A', 'A', 'A', 'A', 'G'],
          "s1", [7], "A"⟩]
        (make_kmer_dictionary [⟨"r1", ['A', 'T', 'A']⟩, ⟨"r2", ['C', 'A', 'A']⟩] 2 false) 2,
        groupKey c1 = groupKey c2 → c1 = c2) ∧
    (∀ m ∈ indexed_motif_finder
        [⟨['A', 'A', 'A', 'A', 'A', 'A', 'A', 'A'], ['A', 'A', 'A', 'A', 'A', 'A', 'A', 'G'],
          "s1", [7], "A"⟩]
        (make_kmer_dictionary [⟨"r1", ['A', 'T', 'A']⟩, ⟨"r2", ['C', 'A', 'A']⟩] 2 false) 2,
      ∃ c ∈ indexed_motif_finder_collapsed
        [⟨['A', 'A', 'A', 'A', 'A', 'A', 'A', 'A'], ['A', 'A', 'A', 'A', 'A', 'A', 'A', 'G'],
          "s1", [7], "A"⟩]
        (make_kmer_dictionary [⟨"r1", ['A', 'T', 'A']⟩, ⟨"r2", ['C', 'A', 'A']⟩] 2 false) 2,
        groupKey c = matchKey m) ∧
    (∀ c ∈ indexed_motif_finder_collapsed
        [⟨['A', 'A', 'A', 'A', 'A', 'A', 'A', 'A'], ['A', 'A', 'A', 'A', 'A', 'A', 'A', 'G'],
          "s1", [7], "A"⟩]
        (make_kmer_dictionary [⟨"r1", ['A', 'T', 'A']⟩, ⟨"r2", ['C', 'A', 'A']⟩] 2 false) 2,
      (c.match_exists = true ↔
        ∃ m ∈ indexed_motif_finder
          [⟨['A', 'A', 'A', 'A', 'A', 'A', 'A', 'A'], ['A', 'A', 'A', 'A', 'A', 'A', 'A', 'G'],
            "s1", [7], "A"⟩]
          (make_kmer_dictionary [⟨"r1", ['A', 'T', 'A']⟩, ⟨"r2", ['C', 'A', 'A']⟩] 2 false) 2,
          matchKey m = groupKey c ∧ m.reference_alignment.isSome = true))) :=
  ⟨by decide,
    collapsed_one_row_per_group
      [⟨['A', 'A', 'A', 'A', 'A', 'A', 'A', 'A'], ['A', 'A', 'A', 'A', 'A', 'A', 'A', 'G'],
        "s1", [7], "A"⟩]
      (make_kmer_dictionary [⟨"r1", ['A', 'T', 'A']⟩, ⟨"r2", ['C', 'A', 'A']⟩] 2 false) 2
      (by decide)⟩

/-! ## C8: the extension loops compute maximal agreement runs -/

theorem extendLeftGo_spec (qseq rseq : List Char) (qIdx rIdx : Int) :
    ∀ (fuel left : Nat), (qIdx - (left : Int)).toNat < fuel →
      (∀ j : Nat, left ≤ j → j < extendLeftGo qseq rseq qIdx rIdx fuel left →
        leftOk qseq rseq qIdx rIdx j) ∧
      ¬ leftOk qseq rseq qIdx rIdx (extendLeftGo qseq rseq qIdx rIdx fuel left) ∧
      left ≤ extendLeftGo qseq rseq qIdx rIdx fuel left := by
  intro fuel
  induction fuel with
  | zero => intro left h; omega
  | succ fuel ih =>
    intro left h
    rw [extendLeftGo]
    by_cases h1 : qIdx - left - 1 < 0
    · rw [if_pos h1]
      refine ⟨fun j hj1 hj2 => absurd hj2 (by omega), ?_, le_refl left⟩
      rintro ⟨hc, -, -⟩
      omega
    · rw [if_neg h1]
      by_cases h2 : rIdx - left - 1 < 0
      · rw [if_pos h2]
        refine ⟨fun j hj1 hj2 => absurd hj2 (by omega), ?_, le_refl left⟩
        rintro ⟨-, hc, -⟩
        omega
      · rw [if_neg h2]
        by_cases h3 : charAt rseq (rIdx - left - 1) = charAt qseq (qIdx - left - 1)
        · rw [if_pos h3]
          obtain ⟨hall, hnot, hle⟩ := ih (left + 1) (by omega)
          refine ⟨fun j hj1 hj2 => ?_, hnot, by omega⟩
          rcases Nat.eq_or_lt_of_le hj1 with rfl | hj1
          · exact ⟨by omega, by omega, h3⟩
          · exact hall j hj1 hj2
        · rw [if_neg h3]
          refine ⟨fun j hj1 hj2 => absurd hj2 (by omega), ?_, le_refl left⟩
          rintro ⟨-, -, hc⟩
          exact h3 hc

theorem extendRightGo_spec (qseq rseq : List Char) (qIdx rIdx : Int) :
    ∀ (fuel right : Nat), ((rseq.length : Int) - rIdx - (right : Int)).toNat < fuel →
      (∀ j : Nat, right ≤ j → j < extendRightGo qseq rseq qIdx rIdx fuel right →
        rightOk qseq rseq qIdx rIdx j) ∧
      ¬ rightOk qseq rseq qIdx rIdx (extendRightGo qseq rseq qIdx rIdx fuel right) ∧
      right ≤ extendRightGo qseq rseq qIdx rIdx fuel right := by
  intro fuel
  induction fuel with
  | zero => intro right h; omega
  | succ fuel ih =>
    intro right h
    rw [extendRightGo]
    by_cases h1 : (rseq.length : Int) ≤ rIdx + right + 1
    · rw [if_pos h1]
      refine ⟨fun j hj1 hj2 => absurd hj2 (by omega), ?_, le_refl right⟩
      rintro ⟨hc, -, -⟩
      omega
    · rw [if_neg h1]
      by_cases h2 : (qseq.length : Int) ≤ qIdx + right + 1
      · rw [if_pos h2]
        refine ⟨fun j hj1 hj2 => absurd hj2 (by omega), ?_, le_refl right⟩
        rintro ⟨-, hc, -⟩
        omega
      · rw [if_neg h2]
        by_cases h3 : charAt rseq (rIdx + right + 1) = charAt qseq (qIdx + right + 1)
        · rw [if_pos h3]
          obtain ⟨hall, hnot, hle⟩ := ih (right + 1) (by omega)
          refine ⟨fun j hj1 hj2 => ?_, hnot, by omega⟩
          rcases Nat.eq_or_lt_of_le hj1 with rfl | hj1
          · exact ⟨by omega, by omega, h3⟩
          · exact hall j hj1 hj2
        · rw [if_neg h3]
          refine ⟨fun j hj1 hj2 => absurd hj2 (by omega), ?_, le_refl right⟩
          rintro ⟨-, -, hc⟩
          exact h3 hc

theorem extendLeftLoop_spec (qseq rseq : List Char) (qIdx rIdx : Int) :
    (∀ j : Nat, j < extendLeftLoop qseq rseq qIdx rIdx → leftOk qseq rseq qIdx rIdx j) ∧
      ¬ leftOk qseq rseq qIdx rIdx (extendLeftLoop qseq rseq qIdx rIdx) := by
  obtain ⟨hall, hnot, -⟩ := extendLeftGo_spec qseq rseq qIdx rIdx (qIdx.toNat + 1) 0 (by omega)
  exact ⟨fun j hj => hall j (Nat.zero_le j) hj, hnot⟩

theorem extendRightLoop_spec (qseq rseq : List Char) (qIdx rIdx : Int) :
    (∀ j : Nat, j < extendRightLoop qseq rseq qIdx rIdx → rightOk qseq rseq qIdx rIdx j) ∧
      ¬ rightOk qseq rseq qIdx rIdx (extendRightLoop qseq rseq qIdx rIdx) := by
  obtain ⟨hall, hnot, -⟩ := extendRightGo_spec qseq rseq qIdx rIdx
    (((rseq.length : Int) - rIdx).toNat + 1) 0 (by omega)
  exact ⟨fun j hj => hall j (Nat.zero_le j) hj, hnot⟩

/-- C8. For a row with non-empty reference sequence, defined alignment and
in-bounds indices, `extend_matches` sets
`match_extent = left + right + 1`, `query_left_idx = query_idx - left` and
`query_right_idx = query_idx + right`, where `left` (resp. `right`) is the
maximal run of agreeing characters left (resp. right) of the mutation that
crosses neither sequence boundary; rows with an empty reference sequence
keep all three fields 0. -/
theorem extend_matches_fields (m : MatchRow) (rIdx : Int)
    (hne : m.reference_sequence ≠ [])
    (ha : m.reference_alignment = some rIdx)
    (_hrb : 0 ≤ rIdx ∧ rIdx < (m.reference_sequence.length : Int))
    (_hqb : 0 ≤ listMin m.query_mutation_index ∧
      listMin m.query_mutation_index < (m.query_sequence.length : Int)) :
    (∃ left right : Nat,
      (∀ j : Nat, j < left →
        leftOk m.query_sequence m.reference_sequence (listMin m.query_mutation_index) rIdx j) ∧
      ¬ leftOk m.query_sequence m.reference_sequence (listMin m.query_mutation_index) rIdx left ∧
      (∀ j : Nat, j < right →
        rightOk m.query_sequence m.reference_sequence (listMin m.query_mutation_index) rIdx j) ∧
      ¬ rightOk m.query_sequence m.reference_sequence (listMin m.query_mutation_index) rIdx right ∧
      extendRow m = ⟨(left : Int) + right + 1, listMin m.query_mutation_index - left,
        listMin m.query_mutation_index + right⟩) ∧
    (∀ m' : MatchRow, m'.reference_sequence = [] →
      extendRow m' = ⟨0, 0, 0⟩) := by
  constructor
  · refine ⟨extendLeftLoop m.query_sequence m.reference_sequence
        (listMin m.query_mutation_index) rIdx,
      extendRightLoop m.query_sequence m.reference_sequence
        (listMin m.query_mutation_index) rIdx,
      (extendLeftLoop_spec _ _ _ _).1, (extendLeftLoop_spec _ _ _ _).2,
      (extendRightLoop_spec _ _ _ _).1, (extendRightLoop_spec _ _ _ _).2, ?_⟩
    rw [extendRow, if_neg hne, ha]
    rfl
  · intro m' h
    rw [extendRow, if_pos h]

/-- Witness for C8 at the `test_imf` row: query `AAAAAAAA`, mutation 7,
reference `CAA`, alignment 2 (left run 1, right run 0). -/
theorem extend_matches_fields_witness :
    ((mkMatchRow
        ⟨['A', 'A', 'A', 'A', 'A', 'A', 'A', 'A'], ['A', 'A', 'A', 'A', 'A', 'A', 'A', 'G'],
          "s1", [7], "A"⟩ ("r2", ['C', 'A', 'A'], 1) 2).reference_sequence ≠ []) ∧
    ((mkMatchRow
        ⟨['A', 'A', 'A', 'A', 'A', 'A', 'A', 'A'], ['A', 'A', 'A', 'A', 'A', 'A', 'A', 'G'],
          "s1", [7], "A"⟩ ("r2", ['C', 'A', 'A'], 1) 2).reference_alignment = some 2) ∧
    ((∃ left right : Nat,
      (∀ j : Nat, j < left →
        leftOk (mkMatchRow
            ⟨['A', 'A', 'A', 'A', 'A', 'A', 'A', 'A'], ['A', 'A', 'A', 'A', 'A', 'A', 'A', 'G'],
              "s1", [7], "A"⟩ ("r2", ['C', 'A', 'A'], 1) 2).query_sequence
          (mkMatchRow
            ⟨['A', 'A', 'A', 'A', 'A', 'A', 'A', 'A'], ['A', 'A', 'A', 'A', 'A', 'A', 'A', 'G'],
              "s1", [7], "A"⟩ ("r2", ['C', 'A', 'A'], 1) 2).reference_sequence
          (listMin (mkMatchRow
            ⟨['A', 'A', 'A', 'A', 'A', 'A', 'A', 'A'], ['A', 'A', 'A', 'A', 'A', 'A', 'A', 'G'],
              "s1", [7], "A"⟩ ("r2", ['C', 'A', 'A'], 1) 2).query_mutation_index) 2 j) ∧
      ¬ leftOk (mkMatchRow
            ⟨['A', 'A', 'A', 'A', 'A', 'A', 'A', 'A'], ['A', 'A', 'A', 'A', 'A', 'A', 'A', 'G'],
              "s1", [7], "A"⟩ ("r2", ['C', 'A', 'A'], 1) 2).query_sequence
          (mkMatchRow
            ⟨['A', 'A', 'A', 'A', 'A', 'A', 'A', 'A'], ['A', 'A', 'A', 'A', 'A', 'A', 'A', 'G'],
              "s1", [7], "A"⟩ ("r2", ['C', 'A', 'A'], 1) 2).reference_sequence
          (listMin (mkMatchRow
            ⟨['A', 'A', 'A', 'A', 'A', 'A', 'A', 'A'], ['A', 'A', 'A', 'A', 'A', 'A', 'A', 'G'],
              "s1", [7], "A"⟩ ("r2", ['C', 'A', 'A'], 1) 2).query_mutation_index) 2 left ∧
      (∀ j : Nat, j < right →
        rightOk (mkMatchRow
            ⟨['A', 'A', 'A', 'A', 'A', 'A', 'A', 'A'], ['A', 'A', 'A', 'A', 'A', 'A', 'A', 'G'],
              "s1", [7], "A"⟩ ("r2", ['C', 'A', 'A'], 1) 2).query_sequence
          (mkMatchRow
            ⟨['A', 'A', 'A', 'A', 'A', 'A', 'A', 'A'], ['A', 'A', 'A', 'A', 'A', 'A', 'A', 'G'],
              "s1", [7], "A"⟩ ("r2", ['C', 'A', 'A'], 1) 2).reference_sequence
          (listMin (mkMatchRow
            ⟨['A', 'A', 'A', 'A', 'A', 'A', 'A', 'A'], ['A', 'A', 'A', 'A', 'A', 'A', 'A', 'G'],
              "s1", [7], "A"⟩ ("r2", ['C', 'A', 'A'], 1) 2).query_mutation_index) 2 j) ∧
      ¬ rightOk (mkMatchRow
            ⟨['A', 'A', 'A', 'A', 'A', 'A', 'A', 'A'], ['A', 'A', 'A', 'A', 'A', 'A', 'A', 'G'],
              "s1", [7], "A"⟩ ("r2", ['C', 'A', 'A'], 1) 2).query_sequence
          (mkMatchRow
            ⟨['A', 'A', 'A', 'A', 'A', 'A', 'A', 'A'], ['A', 'A', 'A', 'A', 'A', 'A', 'A', 'G'],
              "s1", [7], "A"⟩ ("r2", ['C', 'A', 'A'], 1) 2).reference_sequence
          (listMin (mkMatchRow
            ⟨['A', 'A', 'A', 'A', 'A', 'A', 'A', 'A'], ['A', 'A', 'A', 'A', 'A', 'A', 'A', 'G'],
              "s1", [7], "A"⟩ ("r2", ['C', 'A', 'A'], 1) 2).query_mutation_index) 2 right ∧
      extendRow (mkMatchRow
          ⟨['A', 'A', 'A', 'A', 'A', 'A', 'A', 'A'], ['A', 'A', 'A', 'A', 'A', 'A', 'A', 'G'],
            "s1", [7], "A"⟩ ("r2", ['C', 'A', 'A'], 1) 2) =
        ⟨(left : Int) + right + 1,
          listMin (mkMatchRow
            ⟨['A', 'A', 'A', 'A', 'A', 'A', 'A', 'A'], ['A', 'A', 'A', 'A', 'A', 'A', 'A', 'G'],
              "s1", [7], "A"⟩ ("r2", ['C', 'A', 'A'], 1) 2).query_mutation_index - left,
          listMin (mkMatchRow
            ⟨['A', 'A', 'A', 'A', 'A', 'A', 'A', 'A'], ['A', 'A', 'A', 'A', 'A', 'A', 'A', 'G'],
              "s1", [7], "A"⟩ ("r2", ['C', 'A', 'A'], 1) 2).query_mutation_index + right⟩) ∧
    (∀ m' : MatchRow, m'.reference_sequence = [] → extendRow m' = ⟨0, 0, 0⟩)) :=
  ⟨by decide, by decide,
    extend_matches_fields
      (mkMatchRow
        ⟨['A', 'A', 'A', 'A', 'A', 'A', 'A', 'A'], ['A', 'A', 'A', 'A', 'A', 'A', 'A', 'G'],
          "s1", [7], "A"⟩ ("r2", ['C', 'A', 'A'], 1) 2) 2
      (by decide) (by decide) (by decide) (by decide)⟩

/-! ## C3: templated count never exceeds the denominator -/

/-- C3. Under both counting semantics, the templated count is at most the
denominator returned by `templated_number`. -/
theorem templated_number_le (df : List CollapsedRow) (dale : Bool) :
    (templated_number df dale).1 ≤ (templated_number df dale).2 := by
  unfold templated_number
  cases dale with
  | false =>
    simpa using List.countP_le_length _
  | true =>
    simp only [if_true]
    exact List.countP_mono_left (fun e _ h => by
      simp only [Bool.and_eq_true] at h
      exact h.2)

/-! ## C10: order invariance of the dale_method=False aggregation -/

theorem smGet_smSet_same (d : SMDict) (k : SMKey) (v : Bool × Bool) :
    smGet (smSet d k v) k = some v := by
  induction d with
  | nil => simp [smSet, smGet]
  | cons e rest ih =>
    obtain ⟨k0, v0⟩ := e
    rw [smSet]
    by_cases hk : k0 = k
    · rw [if_pos hk, smGet, if_pos hk]
    · rw [if_neg hk, smGet, if_neg hk]
      exact ih

theorem smGet_smSet_ne (d : SMDict) {k k' : SMKey} (v : Bool × Bool) (h : k' ≠ k) :
    smGet (smSet d k v) k' = smGet d k' := by
  induction d with
  | nil =>
    simp only [smSet, smGet]
    rw [if_neg (fun he => h he.symm)]
  | cons e rest ih =>
    obtain ⟨k0, v0⟩ := e
    rw [smSet]
    by_cases hk : k0 = k
    · subst hk
      rw [if_pos rfl, smGet, smGet, if_neg (fun he : k0 = k' => h he.symm),
        if_neg (fun he : k0 = k' => h he.symm)]
    · rw [if_neg hk, smGet, smGet]
      by_cases hk0 : k0 = k'
      · rw [if_pos hk0, if_pos hk0]
      · rw [if_neg hk0, if_neg hk0]
        exact ih

theorem smGet_set_scoring (name : String) (midx : List Int) (t s : Bool) (d : SMDict)
    (key : SMKey) :
    smGet (set_scoring_and_mutation_dict name midx t s d) key =
      if key.1 = name ∧ key.2 ∈ midx then
        some (((smGet d key).getD (false, false)).1 || t,
          ((smGet d key).getD (false, false)).2 || s)
      else smGet d key := by
  induction midx generalizing d with
  | nil => simp [set_scoring_and_mutation_dict]
  | cons m midx ih =>
    have hunf : set_scoring_and_mutation_dict name (m :: midx) t s d =
        set_scoring_and_mutation_dict name midx t s
          (smSet d (name, m) (((smGet d (name, m)).getD (false, false)).1 || t,
            ((smGet d (name, m)).getD (false, false)).2 || s)) := rfl
    rw [hunf, ih]
    by_cases hkey : key = (name, m)
    · subst hkey
      rw [smGet_smSet_same]
      by_cases hmem : m ∈ midx
      · rw [if_pos ⟨rfl, hmem⟩, if_pos ⟨rfl, List.mem_cons_self m midx⟩]
        simp [Bool.or_assoc]
      · rw [if_neg (fun hc => hmem hc.2), if_pos ⟨rfl, List.mem_cons_self m midx⟩]
    · rw [smGet_smSet_ne d _ hkey]
      have hcond : (key.1 = name ∧ key.2 ∈ midx) ↔ (key.1 = name ∧ key.2 ∈ m :: midx) := by
        constructor
        · rintro ⟨h1, h2⟩
          exact ⟨h1, List.mem_cons_of_mem m h2⟩
        · rintro ⟨h1, h2⟩
          rcases List.mem_cons.mp h2 with h2 | h2
          · exact absurd (Prod.ext h1 h2) hkey
          · exact ⟨h1, h2⟩
      by_cases hc : key.1 = name ∧ key.2 ∈ midx
      · rw [if_pos hc, if_pos (hcond.mp hc)]
      · rw [if_neg hc, if_neg (fun hcc => hc (hcond.mpr hcc))]

theorem any_touch_and_eq_false {rows : List CollapsedRow} {key : SMKey}
    (h : rows.any (fun r => touchB key r) = false) :
    rows.any (fun r => touchB key r && r.match_exists) = false := by
  rw [List.any_eq_false] at h ⊢
  intro r hr hc
  rw [Bool.and_eq_true] at hc
  exact h r hr hc.1

theorem smGet_foldl_tnStepF (rows : List CollapsedRow) (d : SMDict) (key : SMKey) :
    smGet (rows.foldl tnStepF d) key =
      if rows.any (fun r => touchB key r) then
        some (((smGet d key).getD (false, false)).1 ||
            rows.any (fun r => touchB key r && r.match_exists),
          ((smGet d key).getD (false, false)).2)
      else smGet d key := by
  induction rows generalizing d with
  | nil => simp
  | cons r rows ih =>
    rw [List.foldl_cons, ih]
    have hS := smGet_set_scoring r.query_name r.query_mutation_index r.match_exists false d key
    have hstep : tnStepF d r =
        set_scoring_and_mutation_dict r.query_name r.query_mutation_index
          r.match_exists false d := rfl
    by_cases htouch : touchB key r = true
    · have hcond : key.1 = r.query_name ∧ key.2 ∈ r.query_mutation_index := by
        rw [touchB, Bool.and_eq_true, decide_eq_true_eq, decide_eq_true_eq] at htouch
        exact htouch
      rw [hstep, hS, if_pos hcond]
      simp only [Option.getD_some, List.any_cons, htouch, Bool.true_or, if_true, Bool.true_and]
      by_cases hany : rows.any (fun r' => touchB key r') = true
      · rw [if_pos hany]
        simp [Bool.or_assoc]
      · rw [Bool.not_eq_true] at hany
        rw [hany, if_neg (by simp), any_touch_and_eq_false hany]
        simp
    · rw [Bool.not_eq_true] at htouch
      have hcond : ¬ (key.1 = r.query_name ∧ key.2 ∈ r.query_mutation_index) := by
        rintro ⟨h1, h2⟩
        have : touchB key r = true := by
          rw [touchB, h1]
          simp [h2]
        rw [this] at htouch
        cases htouch
      rw [hstep, hS, if_neg hcond]
      simp only [List.any_cons, htouch, Bool.false_and, Bool.false_or]

theorem mem_map_fst_smSet {d : SMDict} {k k' : SMKey} {v : Bool × Bool} :
    k' ∈ (smSet d k v).map Prod.fst ↔ k' ∈ d.map Prod.fst ∨ k' = k := by
  induction d with
  | nil => simp [smSet]
  | cons e rest ih =>
    obtain ⟨k0, v0⟩ := e
    rw [smSet]
    by_cases hk : k0 = k
    · subst hk
      rw [if_pos rfl]
      simp only [List.map_cons, List.mem_cons]
      tauto
    · rw [if_neg hk]
      simp only [List.map_cons, List.mem_cons, ih]
      tauto

theorem smSet_nodupKeys {d : SMDict} {k : SMKey} {v : Bool × Bool}
    (h : (d.map Prod.fst).Nodup) : ((smSet d k v).map Prod.fst).Nodup := by
  induction d with
  | nil => simp [smSet]
  | cons e rest ih =>
    obtain ⟨k0, v0⟩ := e
    rw [List.map_cons, List.nodup_cons] at h
    rw [smSet]
    by_cases hk : k0 = k
    · rw [if_pos hk, List.map_cons]
      exact List.nodup_cons.mpr h
    · rw [if_neg hk, List.map_cons]
      refine List.nodup_cons.mpr ⟨fun hmem => ?_, ih h.2⟩
      rcases mem_map_fst_smSet.mp hmem with hmem | rfl
      · exact h.1 hmem
      · exact hk rfl

theorem set_scoring_nodupKeys (name : String) (midx : List Int) (t s : Bool) {d : SMDict}
    (h : (d.map Prod.fst).Nodup) :
    ((set_scoring_and_mutation_dict name midx t s d).map Prod.fst).Nodup := by
  induction midx generalizing d with
  | nil => exact h
  | cons m midx ih => exact ih (smSet_nodupKeys h)

theorem foldl_tnStepF_nodupKeys (rows : List CollapsedRow) {d : SMDict}
    (h : (d.map Prod.fst).Nodup) : ((rows.foldl tnStepF d).map Prod.fst).Nodup := by
  induction rows generalizing d with
  | nil => exact h
  | cons r rows ih => exact ih (set_scoring_nodupKeys _ _ _ _ h)

theorem tn_false_seen_empty (df : List CollapsedRow) (d : SMDict) :
    df.foldl (tnStep false) ([], d) = ([], df.foldl tnStepF d) := by
  induction df generalizing d with
  | nil => rfl
  | cons r df ih =>
    rw [List.foldl_cons, List.foldl_cons]
    have hstep : tnStep false ([], d) r = ([], tnStepF d r) := by
      rw [tnStep, tnStepF]
      simp
    rw [hstep, ih]

theorem smGet_eq_none_iff {d : SMDict} {k : SMKey} :
    smGet d k = none ↔ k ∉ d.map Prod.fst := by
  induction d with
  | nil => simp [smGet]
  | cons e rest ih =>
    obtain ⟨k0, v0⟩ := e
    rw [smGet]
    by_cases hk : k0 = k
    · subst hk
      simp
    · rw [if_neg hk, ih, List.map_cons, List.mem_cons]
      constructor
      · intro h hmem
        rcases hmem with hmem | hmem
        · exact hk hmem.symm
        · exact h hmem
      · intro h hmem
        exact h (Or.inr hmem)

theorem smGet_extract {d : SMDict} {k : SMKey} {v : Bool × Bool}
    (hnd : (d.map Prod.fst).Nodup) (h : smGet d k = some v) :
    ∃ l1 l2, d = l1 ++ (k, v) :: l2 ∧ k ∉ l1.map Prod.fst ∧ k ∉ l2.map Prod.fst := by
  induction d with
  | nil => simp [smGet] at h
  | cons e rest ih =>
    obtain ⟨k0, v0⟩ := e
    rw [smGet] at h
    rw [List.map_cons, List.nodup_cons] at hnd
    by_cases hk : k0 = k
    · subst hk
      rw [if_pos rfl] at h
      obtain rfl : v0 = v := Option.some.inj h
      exact ⟨[], rest, rfl, by simp, hnd.1⟩
    · rw [if_neg hk] at h
      obtain ⟨l1, l2, rfl, h1, h2⟩ := ih hnd.2 h
      refine ⟨(k0, v0) :: l1, l2, rfl, ?_, h2⟩
      rw [List.map_cons]
      intro hmem
      rcases List.mem_cons.mp hmem with he | he
      · exact hk he.symm
      · exact h1 he

theorem smGet_append_not_mem {l1 l2 : SMDict} {k : SMKey}
    (h : k ∉ l1.map Prod.fst) : smGet (l1 ++ l2) k = smGet l2 k := by
  induction l1 with
  | nil => rfl
  | cons e rest ih =>
    obtain ⟨k0, v0⟩ := e
    rw [List.map_cons] at h
    rw [List.cons_append, smGet,
      if_neg (fun he : k0 = k => h (List.mem_cons.mpr (Or.inl he.symm)))]
    exact ih (fun hm => h (List.mem_cons_of_mem _ hm))

theorem smGet_append_middle {l1 l2 : SMDict} {k k' : SMKey} {v : Bool × Bool}
    (h : k' ≠ k) : smGet (l1 ++ (k, v) :: l2) k' = smGet (l1 ++ l2) k' := by
  induction l1 with
  | nil =>
    rw [List.nil_append, List.nil_append, smGet, if_neg (fun he => h he.symm)]
  | cons e rest ih =>
    obtain ⟨k0, v0⟩ := e
    rw [List.cons_append, List.cons_append, smGet, smGet]
    by_cases hk : k0 = k'
    · rw [if_pos hk, if_pos hk]
    · rw [if_neg hk, if_neg hk]
      exact ih

theorem smDict_perm_of_get_eq : ∀ {d1 d2 : SMDict},
    (d1.map Prod.fst).Nodup → (d2.map Prod.fst).Nodup →
    (∀ k, smGet d1 k = smGet d2 k) → d1.Perm d2 := by
  intro d1
  induction d1 with
  | nil =>
    intro d2 _ _ h
    cases d2 with
    | nil => exact List.Perm.refl []
    | cons e rest =>
      obtain ⟨k0, v0⟩ := e
      have h0 := h k0
      simp [smGet] at h0
  | cons e t ih =>
    obtain ⟨k, v⟩ := e
    intro d2 h1 h2 h
    have hk : smGet d2 k = some v := by
      have hh := h k
      rw [smGet, if_pos rfl] at hh
      exact hh.symm
    obtain ⟨l1, l2, rfl, hm1, hm2⟩ := smGet_extract h2 hk
    rw [List.map_cons, List.nodup_cons] at h1
    have hnd12 : ((l1 ++ l2).map Prod.fst).Nodup := by
      have hsub : ((l1 ++ l2).map Prod.fst).Sublist ((l1 ++ (k, v) :: l2).map Prod.fst) := by
        rw [List.map_append, List.map_append, List.map_cons]
        exact List.Sublist.append (List.Sublist.refl _) (List.sublist_cons_self _ _)
      exact List.Nodup.sublist hsub h2
    have hget : ∀ k', smGet t k' = smGet (l1 ++ l2) k' := by
      intro k'
      by_cases hk' : k' = k
      · subst hk'
        rw [smGet_eq_none_iff.mpr h1.1, smGet_append_not_mem hm1,
          smGet_eq_none_iff.mpr hm2]
      · have hh := h k'
        rw [smGet, if_neg (fun he => hk' he.symm)] at hh
        rw [hh, smGet_append_middle hk']
    exact ((ih h1.2 hnd12 hget).cons (k, v)).trans List.perm_middle.symm

theorem perm_any_eq {α : Type} (f : α → Bool) {l l' : List α} (h : l.Perm l') :
    l.any f = l'.any f := by
  cases hl : l.any f with
  | true =>
    obtain ⟨x, hx, hfx⟩ := List.any_eq_true.mp hl
    exact (List.any_eq_true.mpr ⟨x, h.subset hx, hfx⟩).symm
  | false =>
    cases hl2 : l'.any f with
    | false => rfl
    | true =>
      obtain ⟨x, hx, hfx⟩ := List.any_eq_true.mp hl2
      rw [List.any_eq_false] at hl
      exact absurd hfx (hl x (h.symm.subset hx))

/-- C10. With `dale_method=False`, `templated_number` returns the same
`(templated_count, denominator)` pair on any permutation of its input
rows. -/
theorem templated_number_false_perm (df df' : List CollapsedRow) (h : df.Perm df') :
    templated_number df false = templated_number df' false := by
  have e1 : templated_number df false =
      ((df.foldl tnStepF []).countP (fun e => e.2.1), (df.foldl tnStepF []).length) := by
    show ((df.foldl (tnStep false) ([], [])).2.countP (fun e => e.2.1),
      (df.foldl (tnStep false) ([], [])).2.length) = _
    rw [tn_false_seen_empty]
  have e2 : templated_number df' false =
      ((df'.foldl tnStepF []).countP (fun e => e.2.1), (df'.foldl tnStepF []).length) := by
    show ((df'.foldl (tnStep false) ([], [])).2.countP (fun e => e.2.1),
      (df'.foldl (tnStep false) ([], [])).2.length) = _
    rw [tn_false_seen_empty]
  have hnd : ((df.foldl tnStepF []).map Prod.fst).Nodup :=
    foldl_tnStepF_nodupKeys df (by simp)
  have hnd' : ((df'.foldl tnStepF []).map Prod.fst).Nodup :=
    foldl_tnStepF_nodupKeys df' (by simp)
  have hget : ∀ key, smGet (df.foldl tnStepF []) key = smGet (df'.foldl tnStepF []) key := by
    intro key
    rw [smGet_foldl_tnStepF, smGet_foldl_tnStepF,
      perm_any_eq (fun r => touchB key r) h,
      perm_any_eq (fun r => touchB key r && r.match_exists) h]
  have hperm := smDict_perm_of_get_eq hnd hnd' hget
  rw [e1, e2, hperm.countP_eq, hperm.length_eq]

/-- Witness for C10: swapping two concrete rows leaves the
`dale_method=False` result unchanged. -/
theorem templated_number_false_perm_witness :
    (([(⟨['A'], "s1", [0], ['C'], "A", true⟩ : CollapsedRow),
        ⟨['G'], "s2", [1], ['C'], "A", false⟩]).Perm
      [(⟨['G'], "s2", [1], ['C'], "A", false⟩ : CollapsedRow),
        ⟨['A'], "s1", [0], ['C'], "A", true⟩]) ∧
    templated_number
        [⟨['A'], "s1", [0], ['C'], "A", true⟩, ⟨['G'], "s2", [1], ['C'], "A", false⟩] false =
      templated_number
        [⟨['G'], "s2", [1], ['C'], "A", false⟩, ⟨['A'], "s1", [0], ['C'], "A", true⟩] false :=
  ⟨List.Perm.swap _ _ _,
    templated_number_false_perm _ _ (List.Perm.swap _ _ _)⟩

/-! ## C1: zero aggregate denominator is a divide-by-zero failure -/

/-- Counterexample to C1: on the empty row sequence the aggregate
denominator is zero, yet the caller's ratio raises `ZeroDivisionError`
instead of evaluating to the `nan` sentinel. -/
theorem zero_denominator_counterexample :
    (templated_number [] false).2 = 0 ∧
    poly_motif_finder_frac [] false = Except.error ("ZeroDivisionError") ∧
    poly_motif_finder_frac [] false ≠ Except.ok PyVal.nan := by
  refine ⟨rfl, ?_, ?_⟩
  · show pyDiv (PyVal.num ((0 : Nat) : ℚ)) (PyVal.num ((0 : Nat) : ℚ)) =
      Except.error ("ZeroDivisionError")
    simp [pyDiv]
  · show pyDiv (PyVal.num ((0 : Nat) : ℚ)) (PyVal.num ((0 : Nat) : ℚ)) ≠
      Except.ok PyVal.nan
    simp [pyDiv]

/-- C1 as amended: when the aggregate denominator is zero the
`poly_motif_finder` ratio fails with `ZeroDivisionError` (and so does the
`motif_finder` ratio when its mutation count is zero); no `nan` sentinel is
produced. -/
theorem zero_denominator_raises (df : List CollapsedRow) (dale : Bool) (n : Nat)
    (h : (templated_number df dale).2 = 0) (hn : n = 0) :
    poly_motif_finder_frac df dale = Except.error ("ZeroDivisionError") ∧
    motif_finder_frac df n = Except.error ("ZeroDivisionError") := by
  constructor
  · show pyDiv (PyVal.num ((templated_number df dale).1 : ℚ))
      (PyVal.num ((templated_number df dale).2 : ℚ)) = Except.error ("ZeroDivisionError")
    rw [h]
    simp [pyDiv]
  · subst hn
    show pyDiv (PyVal.num ((templated_number df false).1 : ℚ))
      (PyVal.num ((0 : Nat) : ℚ)) = Except.error ("ZeroDivisionError")
    simp [pyDiv]

/-- Witness for the amended C1 at the empty row sequence. -/
theorem zero_denominator_raises_witness :
    ((templated_number [] false).2 = 0) ∧ ((0 : Nat) = 0) ∧
    (poly_motif_finder_frac [] false = Except.error ("ZeroDivisionError") ∧
      motif_finder_frac [] 0 = Except.error ("ZeroDivisionError")) :=
  ⟨rfl, rfl, zero_denominator_raises [] false 0 rfl rfl⟩

end PyMotifFinder
